import Mathlib

/-!
Shallow embedding of the SKU configurator core from `app.py`:
`normalize_fields`, `ordered_fields`, `generate_full_matrix`, and the SKU
assembly performed in `home` (lines 624-626).  Python strings are
modelled as lists of characters, and Python dicts (which are
insertion-ordered with unique keys) as association lists in insertion
order.  Python's `sorted` is a stable sort, so it is modelled by
insertion sort with the same comparison, which produces the identical
stable result.
-/

/-- A Python string, modelled as its list of characters. -/
abbrev Str := List Char

/-- Character list of a Lean string literal (used to write concrete data). -/
def chars (s : String) : Str := s.data

/-- The constant `DEFAULT_SEPARATOR = "-"` from `app.py`. -/
def DEFAULT_SEPARATOR : Str := chars "-"

/-- One option dict inside a dropdown field: keys `code`, `name`, and the
optional keys `order` and `type` (the admin page stores a text-input
field as the single option `\x7b"type": "text", "code": "", "name": ""\x7d`,
line 914 of `app.py`). -/
structure FieldOption where
  code : Str
  name : Str
  order : Option Int
  type : Option Str
deriving DecidableEq

/-- The canonical field value: a dict with an optional `order` key and an
`options` list. -/
structure FieldSpec where
  order : Option Int
  options : List FieldOption
deriving DecidableEq

/-- A raw stored field value: either a legacy bare option list, or the
canonical dict. -/
inductive FieldVal where
  | legacy (opts : List FieldOption)
  | canonical (spec : FieldSpec)
deriving DecidableEq

/-- Whether the stored value is already a dict (`isinstance(v, dict)`). -/
def FieldVal.isCanonical : FieldVal → Bool
  | .legacy _ => false
  | .canonical _ => true

/-- `fields[f]["options"]`.  A legacy value is itself its option list; in
the application every access happens after `normalize_fields`, where all
values are canonical. -/
def FieldVal.options : FieldVal → List FieldOption
  | .legacy opts => opts
  | .canonical s => s.options

/-- `fields[k].get("order", 999)`, the sort key used by `ordered_fields`
(only reached on normalized, hence canonical, values). -/
def FieldVal.orderKey : FieldVal → Int
  | .legacy _ => 999
  | .canonical s => s.order.getD 999

/-- One extra dict: keys `code`, `name`, optional `order`. -/
structure Extra where
  code : Str
  name : Str
  order : Option Int
deriving DecidableEq

/-- The per-category `settings` dict; both keys are read with `.get` and
a default, so they are optional. -/
structure Settings where
  separator : Option Str
  extras_mode : Option Str
deriving DecidableEq

/-- A category dict: `fields` is an insertion-ordered mapping with unique
keys, `extras` a list, `settings` a dict. -/
structure Category where
  fields : List (Str × FieldVal)
  extras : List Extra
  settings : Settings
deriving DecidableEq

/-- `cat_data.get("settings", \x7b\x7d).get("separator", DEFAULT_SEPARATOR)`. -/
def Category.sep (cat : Category) : Str :=
  cat.settings.separator.getD DEFAULT_SEPARATOR

/-- `dict.get(k)` on an insertion-ordered mapping: the value of the first
binding of `k`, if any. -/
def aget (k : Str) : List (Str × β) → Option β
  | [] => none
  | p :: rest => if p.1 = k then some p.2 else aget k rest

/-- The body of `normalize_fields` for one entry: a dict passes through
unchanged, any other value `v` is wrapped as
`\x7b"order": i, "options": v\x7d` with `i` its 1-based position. -/
def normalizeVal (i : Nat) : FieldVal → FieldVal
  | .legacy opts => .canonical ⟨some (i : Int), opts⟩
  | .canonical s => .canonical s

/-- The enumeration of `normalize_fields` starting at index `i`. -/
def normalizeFrom (i : Nat) : List (Str × FieldVal) → List (Str × FieldVal)
  | [] => []
  | (k, v) :: rest => (k, normalizeVal i v) :: normalizeFrom (i + 1) rest

/-- `normalize_fields` (lines 74-88): rebuild the fields mapping,
wrapping each legacy bare option list with its 1-based enumeration index
as `order`; dict values pass through unchanged.  The source mutates
`cat["fields"]` in place; here the new mapping is returned. -/
def normalize_fields (fields : List (Str × FieldVal)) : List (Str × FieldVal) :=
  normalizeFrom 1 fields

/-- The comparison used by `ordered_fields`:
`key=lambda k: fields[k].get("order", 999)`. -/
def fieldLe (a b : Str × FieldVal) : Prop :=
  a.2.orderKey ≤ b.2.orderKey

instance : DecidableRel fieldLe := fun _ _ => Int.decLe _ _

instance : IsTotal (Str × FieldVal) fieldLe := ⟨fun _ _ => Int.le_total _ _⟩

instance : IsTrans (Str × FieldVal) fieldLe := ⟨fun _ _ _ => Int.le_trans⟩

/-- `sorted(fields.keys(), key=...)` viewed on entries: the stable sort of
the insertion-ordered mapping by the order key.  Python's `sorted` is
stable, and a stable sort's output is uniquely determined by the
comparison, so insertion sort computes the same list. -/
def sortedFields (fields : List (Str × FieldVal)) : List (Str × FieldVal) :=
  List.insertionSort fieldLe fields

/-- `ordered_fields` (lines 90-100): the field names sorted by
`fields[k].get("order", 999)`, ties broken by insertion order. -/
def ordered_fields (fields : List (Str × FieldVal)) : List Str :=
  (sortedFields fields).map Prod.fst

/-- `is_text = opts and opts[0].get("type") == "text"` (line 156). -/
def isTextOpts (opts : List FieldOption) : Bool :=
  match opts with
  | [] => false
  | o :: _ => o.type == some (chars "text")

/-- `itertools.product` over a list of dimensions, rightmost dimension
varying fastest. -/
def listProd : List (List α) → List (List α)
  | [] => [[]]
  | d :: ds => d.flatMap (fun x => (listProd ds).map (fun c => x :: c))

/-- Python's `sep.join(parts)`. -/
def sepJoin (sep : Str) : List Str → Str
  | [] => []
  | [p] => p
  | p :: q :: rest => p ++ sep ++ sepJoin sep (q :: rest)

/-- One output row of `generate_full_matrix`: the `SKU` column and one
column per enumerated field (the field's chosen code). -/
structure Row where
  sku : Str
  cols : List (Str × Str)
deriving DecidableEq

/-- The per-entry step of the field loop in `generate_full_matrix`
(lines 154-160): a field contributes a dimension exactly when its
options list is non-empty and not a text marker; the dimension is the
list of its option codes. -/
def enumF (e : Str × FieldVal) : Option (Str × List Str) :=
  if isTextOpts e.2.options = false ∧ e.2.options ≠ [] then
    some (e.1, e.2.options.map (fun o => o.code))
  else none

/-- The `(field_names, field_combos)` pairs collected by the field loop of
`generate_full_matrix`, iterating `ordered_fields` and skipping text
fields and fields with empty options. -/
def enumDims (fields : List (Str × FieldVal)) : List (Str × List Str) :=
  (sortedFields fields).filterMap enumF

/-- `generate_full_matrix` (lines 136-176): normalize the fields, collect
the dropdown dimensions, return an empty table when there are none
(`if not field_combos`), otherwise one row per element of the cartesian
product, with `SKU = sep.join(combo)` (no code skipped) and one column
per enumerated field name.  Extras are not consulted at all. -/
def generate_full_matrix (cat : Category) : List Row :=
  if enumDims (normalize_fields cat.fields) = [] then []
  else
    (listProd ((enumDims (normalize_fields cat.fields)).map Prod.snd)).map (fun combo =>
      ⟨sepJoin cat.sep combo,
       List.zip ((enumDims (normalize_fields cat.fields)).map Prod.fst) combo⟩)

/-- The contribution of one field name to the list comprehension of line
624: its selected code, provided the field is present in `sel` and its
code is non-empty (`if sel.get(k) and sel[k]["code"]`). -/
def selCode (sel : List (Str × Str)) (k : Str) : Option Str :=
  (aget k sel).bind (fun c => if c ≠ [] then some c else none)

/-- `base` of line 624: the separator-join of the selected codes, in
`ordered_fields` order, skipping fields that are absent from `sel` or
whose code is empty. -/
def assemble_base (sep : Str) (fields : List (Str × FieldVal))
    (sel : List (Str × Str)) : Str :=
  sepJoin sep ((ordered_fields fields).filterMap (selCode sel))

/-- Line 626: `sku = base + (sep if base and extras_codes else "") + extras_codes`. -/
def sku_combine (sep base extras_codes : Str) : Str :=
  base ++ (if base ≠ [] ∧ extras_codes ≠ [] then sep else []) ++ extras_codes

/-- The SKU assembly of `home` (lines 624-626): `sel` maps each field
name to the selected code, `chosenCodes` is the list of chosen extras
codes in display order; `extras_codes` is their plain concatenation
(`"".join`). -/
def assemble (sep : Str) (fields : List (Str × FieldVal))
    (sel : List (Str × Str)) (chosenCodes : List Str) : Str :=
  sku_combine sep (assemble_base sep fields sel) chosenCodes.flatten

/-- The "Blast Machine" test category from the spec: separator `"-"`,
fields `Brand=\x7bBL\x7d`, `Capacity=\x7b20,24\x7d`, extras `\x7bR, W\x7d` in Multiple
mode. -/
def blastCat : Category :=
  ⟨[(chars "Brand", .canonical ⟨some 1, [⟨chars "BL", chars "Blastline", some 1, none⟩]⟩),
    (chars "Capacity", .canonical ⟨some 2,
      [⟨chars "20", chars "20 litre", some 1, none⟩,
       ⟨chars "24", chars "24 litre", some 2, none⟩]⟩)],
   [⟨chars "R", chars "Remote", some 1⟩, ⟨chars "W", chars "Wet blast", some 2⟩],
   ⟨some (chars "-"), some (chars "Multiple")⟩⟩

/-- A category whose only field is a free-text field (stored as the
single option `\x7b"type": "text", "code": "", "name": ""\x7d`). -/
def textOnlyCat : Category :=
  ⟨[(chars "Part Number", .canonical ⟨some 1, [⟨[], [], none, some (chars "text")⟩]⟩)],
   [], ⟨none, none⟩⟩

/-- The first row of the Blast Machine matrix, used as a concrete witness. -/
def blastRow : Row :=
  ⟨chars "BL-20", [(chars "Brand", chars "BL"), (chars "Capacity", chars "20")]⟩

/-- C2 counterexample category: field `A` with code `X`, field `B` whose
single option has an empty code; separator `"-"`. -/
def emptyCodeCat : Category :=
  ⟨[(chars "A", .canonical ⟨some 1, [⟨chars "X", chars "X option", none, none⟩]⟩),
    (chars "B", .canonical ⟨some 2, [⟨[], chars "blank option", none, none⟩]⟩)],
   [], ⟨some (chars "-"), none⟩⟩

/-- No separator artifact, for a single-character separator `c`: the
string does not start with `c`, does not end with `c`, and never has two
adjacent occurrences of `c`. -/
def noSepRun (c : Char) (l : Str) : Prop :=
  l.head? ≠ some c ∧ l.getLast? ≠ some c ∧
    l.Chain' (fun a b => ¬ (a = c ∧ b = c))

/-- A concrete selection on the Blast Machine category for the C6
witness. -/
def c6sel : List (Str × Str) :=
  [(chars "Brand", chars "BL"), (chars "Capacity", chars "20")]

/-- A category with one dropdown field and one FreeText field. -/
def textPlusCat : Category :=
  ⟨[(chars "Brand", .canonical ⟨some 1, [⟨chars "BL", chars "Blastline", some 1, none⟩]⟩),
    (chars "Part Number", .canonical ⟨some 2, [⟨[], [], none, some (chars "text")⟩]⟩)],
   [], ⟨some (chars "-"), none⟩⟩

/-! ### Basic lemmas about the embedded operations -/

theorem length_listProd (ds : List (List α)) :
    (listProd ds).length = (ds.map List.length).prod := by
  induction ds with
  | nil => rfl
  | cons d ds ih =>
    simp [listProd, List.length_flatMap, Function.comp_def, ih, List.map_const',
      List.sum_replicate, smul_eq_mul]

theorem length_of_mem_listProd {ds : List (List α)} {c : List α}
    (h : c ∈ listProd ds) : c.length = ds.length := by
  induction ds generalizing c with
  | nil =>
    simp [listProd] at h
    simp [h]
  | cons d ds ih =>
    simp [listProd] at h
    obtain ⟨x, _, c', hc', rfl⟩ := h
    simp [ih hc']

theorem listProd_ne_nil {ds : List (List α)} (h : ∀ d ∈ ds, d ≠ []) :
    listProd ds ≠ [] := by
  have hlen : 0 < (listProd ds).length := by
    rw [length_listProd]
    apply List.prod_pos
    intro a ha
    rw [List.mem_map] at ha
    obtain ⟨d, hd, rfl⟩ := ha
    exact List.length_pos.mpr (h d hd)
  exact List.ne_nil_of_length_pos hlen

theorem enumF_snd_ne_nil {e : Str × FieldVal} {d : Str × List Str}
    (h : enumF e = some d) : d.2 ≠ [] := by
  unfold enumF at h
  split at h
  · next hcond =>
    cases h
    simpa using hcond.2
  · cases h

theorem mem_enumDims_snd_ne_nil {fields : List (Str × FieldVal)}
    {d : Str × List Str} (h : d ∈ enumDims fields) : d.2 ≠ [] := by
  rw [enumDims, List.mem_filterMap] at h
  obtain ⟨e, _, he⟩ := h
  exact enumF_snd_ne_nil he

/-! ### C5 -/

/-- C5: for every separator, every base (the separator-join of the
non-empty selected codes) and every extras concatenation, the assembler
returns `base ++ sep ++ extras` when base, extras and sep are all
non-empty, and `base ++ extras` with no separator inserted otherwise. -/
theorem c5_conditional_separator (sep : Str) (fields : List (Str × FieldVal))
    (sel : List (Str × Str)) (chosenCodes : List Str) :
    assemble sep fields sel chosenCodes =
      if assemble_base sep fields sel ≠ [] ∧ chosenCodes.flatten ≠ [] ∧ sep ≠ [] then
        assemble_base sep fields sel ++ sep ++ chosenCodes.flatten
      else assemble_base sep fields sel ++ chosenCodes.flatten := by
  unfold assemble sku_combine
  by_cases hb : assemble_base sep fields sel = [] <;>
    by_cases he : chosenCodes.flatten = [] <;>
      by_cases hs : sep = [] <;>
        simp [hb, he, hs]

/-! ### C8 -/

theorem normalizeFrom_normalizeFrom (i j : Nat) (l : List (Str × FieldVal)) :
    normalizeFrom j (normalizeFrom i l) = normalizeFrom i l := by
  induction l generalizing i j with
  | nil => rfl
  | cons p rest ih =>
    obtain ⟨k, v⟩ := p
    cases v <;> simp [normalizeFrom, normalizeVal, ih]

/-- C8: field normalization is idempotent — applying `normalize_fields`
twice to a fields mapping of any input shape (legacy bare option lists
or canonical dicts) gives the same mapping as applying it once. -/
theorem c8_normalize_idempotent (fields : List (Str × FieldVal)) :
    normalize_fields (normalize_fields fields) = normalize_fields fields :=
  normalizeFrom_normalizeFrom 1 1 fields

/-! ### C1 -/

/-- C1 counterexample: on the spec's "Blast Machine" category (separator
`"-"`, Brand=\x7bBL\x7d, Capacity=\x7b20,24\x7d, extras \x7bR,W\x7d in Multiple mode),
`generate_full_matrix` does not return `1 * 2 * 2^2 = 8` rows and does
not contain the row `"BL-20-R"`: extras are ignored entirely. -/
theorem c1_cex :
    (generate_full_matrix blastCat).length ≠ 1 * 2 * 2 ^ 2 ∧
    chars "BL-20-R" ∉ (generate_full_matrix blastCat).map Row.sku := by
  decide

/-- C1 (amended): the number of rows returned by `generate_full_matrix`
equals the product of the option counts of the dropdown fields that have
a non-empty, non-text options list — with no extras factor at all — and
is `0` (not `1`) when no such field exists; extras and the extras mode
never influence the count.  On the "Blast Machine" category this yields
exactly the two rows `"BL-20"` and `"BL-24"`. -/
theorem c1_row_count (cat : Category) :
    (generate_full_matrix cat).length =
      (if enumDims (normalize_fields cat.fields) = [] then 0
       else ((enumDims (normalize_fields cat.fields)).map (fun d => d.2.length)).prod) ∧
    (∀ es m,
      (generate_full_matrix ⟨cat.fields, es, ⟨cat.settings.separator, m⟩⟩).length =
        (generate_full_matrix cat).length) ∧
    (generate_full_matrix blastCat).map Row.sku = [chars "BL-20", chars "BL-24"] := by
  refine ⟨?_, fun es m => rfl, by decide⟩
  unfold generate_full_matrix
  by_cases h : enumDims (normalize_fields cat.fields) = [] <;>
    simp [h, length_listProd, List.map_map, Function.comp_def]

/-! ### C4 -/

/-- C4 counterexample: a category whose only field is a FreeText field
yields an empty enumeration — no placeholder dimension is substituted,
so the result degenerates to zero rows instead of one base combination. -/
theorem c4_cex : generate_full_matrix textOnlyCat = [] := by decide

/-- C4 (amended): `generate_full_matrix` substitutes no placeholder
dimension — FreeText fields and zero-option dropdowns are skipped
entirely, and the enumeration is empty exactly when no field contributes
a dimension (no dropdown field with a non-empty, non-text options
list). -/
theorem c4_empty_iff_no_dims (cat : Category) :
    generate_full_matrix cat = [] ↔ enumDims (normalize_fields cat.fields) = [] := by
  constructor
  · intro hgen
    by_contra h
    have hne : listProd ((enumDims (normalize_fields cat.fields)).map Prod.snd) ≠ [] :=
      listProd_ne_nil (by
        intro d hd
        rw [List.mem_map] at hd
        obtain ⟨p, hp, rfl⟩ := hd
        exact mem_enumDims_snd_ne_nil hp)
    rw [generate_full_matrix, if_neg h, List.map_eq_nil_iff] at hgen
    exact hne hgen
  · intro h
    rw [generate_full_matrix, if_pos h]

/-! ### C7 -/

theorem filter_key_orderedInsert_eq (v : Int) (a : Str × FieldVal)
    (L : List (Str × FieldVal)) (ha : a.2.orderKey = v) :
    (List.orderedInsert fieldLe a L).filter (fun e => e.2.orderKey == v) =
      a :: L.filter (fun e => e.2.orderKey == v) := by
  rw [List.orderedInsert_eq_take_drop, List.filter_append]
  have h1 : (L.takeWhile fun b => ¬ fieldLe a b).filter (fun e => e.2.orderKey == v) = [] := by
    rw [List.filter_eq_nil_iff]
    intro e he hkey
    have hlt : ¬ fieldLe a e := by
      have := List.mem_takeWhile_imp he
      simpa using this
    apply hlt
    have : e.2.orderKey = v := by simpa using hkey
    rw [fieldLe, ha, this]
  rw [h1, List.nil_append, List.filter_cons_of_pos (by simpa using ha)]
  have h2 : L.filter (fun e => e.2.orderKey == v) =
      ((L.takeWhile fun b => ¬ fieldLe a b).filter (fun e => e.2.orderKey == v)) ++
        ((L.dropWhile fun b => ¬ fieldLe a b).filter (fun e => e.2.orderKey == v)) := by
    rw [← List.filter_append, List.takeWhile_append_dropWhile]
  rw [h2, h1, List.nil_append]

theorem filter_key_orderedInsert_ne (v : Int) (a : Str × FieldVal)
    (L : List (Str × FieldVal)) (ha : a.2.orderKey ≠ v) :
    (List.orderedInsert fieldLe a L).filter (fun e => e.2.orderKey == v) =
      L.filter (fun e => e.2.orderKey == v) := by
  rw [List.orderedInsert_eq_take_drop, List.filter_append,
    List.filter_cons_of_neg (by simpa using ha), ← List.filter_append,
    List.takeWhile_append_dropWhile]

theorem filter_key_sortedFields (v : Int) (l : List (Str × FieldVal)) :
    (sortedFields l).filter (fun e => e.2.orderKey == v) =
      l.filter (fun e => e.2.orderKey == v) := by
  induction l with
  | nil => rfl
  | cons a l ih =>
    show (List.orderedInsert fieldLe a (List.insertionSort fieldLe l)).filter _ = _
    by_cases ha : a.2.orderKey = v
    · rw [filter_key_orderedInsert_eq v a _ ha, List.filter_cons_of_pos (by simpa using ha)]
      exact congrArg _ ih
    · rw [filter_key_orderedInsert_ne v a _ ha, List.filter_cons_of_neg (by simpa using ha)]
      exact ih

/-- C7 counterexample: in the mapping `A ↦ order 1000, B ↦ no order`, the
field `B` missing an explicit order receives the sentinel 999 and sorts
BEFORE the explicitly ordered field `A`, so a missing-order field does
not sort after every field that has an explicit order. -/
theorem c7_cex :
    ordered_fields [(chars "A", .canonical ⟨some 1000, []⟩),
                    (chars "B", .canonical ⟨none, []⟩)] =
      [chars "B", chars "A"] := by
  decide

/-- C7 (amended): `ordered_fields` returns the field names of the stable
sort of the mapping by `order`-value ascending: the sorted entry list is
a permutation of the mapping, is pairwise-ascending in the effective
order key, ties keep the mapping's insertion order (for every key value,
filtering the sorted list on that key gives the same list as filtering
the input), and a field missing an explicit `order` gets the sentinel
key 999 — so it sorts after fields with order below 999 but not after
fields whose explicit order is 999 or more. -/
theorem c7_ordered_fields (fields : List (Str × FieldVal)) :
    ordered_fields fields = (sortedFields fields).map Prod.fst ∧
    List.Perm (sortedFields fields) fields ∧
    List.Pairwise (fun a b : Str × FieldVal => a.2.orderKey ≤ b.2.orderKey)
      (sortedFields fields) ∧
    (∀ v : Int, (sortedFields fields).filter (fun e => e.2.orderKey == v) =
      fields.filter (fun e => e.2.orderKey == v)) ∧
    (∀ s : FieldSpec, s.order = none → (FieldVal.canonical s).orderKey = 999) := by
  refine ⟨rfl, List.perm_insertionSort fieldLe fields, ?_, fun v => filter_key_sortedFields v fields, ?_⟩
  · exact List.sorted_insertionSort fieldLe fields
  · intro s hs
    simp [FieldVal.orderKey, hs]

/-! ### C9 -/

theorem aget_cons_of_eq {p : Str × β} {l : List (Str × β)} {k : Str}
    (h : p.1 = k) : aget k (p :: l) = some p.2 := by
  rw [aget, if_pos h]

theorem aget_cons_of_ne {p : Str × β} {l : List (Str × β)} {k : Str}
    (h : ¬ p.1 = k) : aget k (p :: l) = aget k l := by
  rw [aget, if_neg h]

theorem aget_eq_none_iff {l : List (Str × β)} {k : Str} :
    aget k l = none ↔ k ∉ l.map Prod.fst := by
  induction l with
  | nil => simp [aget]
  | cons p rest ih =>
    rw [List.map_cons, List.mem_cons]
    by_cases h : p.1 = k
    · rw [aget_cons_of_eq h]
      constructor
      · intro hag; cases hag
      · intro hmem; exact absurd (Or.inl h.symm) hmem
    · rw [aget_cons_of_ne h, ih]
      constructor
      · intro hnm hor
        rcases hor with h1 | h2
        · exact h h1.symm
        · exact hnm h2
      · intro hni h2
        exact hni (Or.inr h2)

theorem selCode_filter {sel : List (Str × Str)}
    (hnd : (sel.map Prod.fst).Nodup) (k : Str) :
    selCode (sel.filter (fun p => p.2 ≠ [])) k = selCode sel k := by
  induction sel with
  | nil => rfl
  | cons p rest ih =>
    rw [List.map_cons, List.nodup_cons] at hnd
    by_cases hk : p.1 = k
    · by_cases hp : p.2 = []
      · rw [List.filter_cons_of_neg (by simpa using hp), ih hnd.2]
        unfold selCode
        rw [aget_cons_of_eq hk,
          show aget k rest = none from aget_eq_none_iff.mpr (hk ▸ hnd.1)]
        simp [hp]
      · rw [List.filter_cons_of_pos (by simpa using hp)]
        unfold selCode
        rw [aget_cons_of_eq hk, aget_cons_of_eq hk]
    · by_cases hp : p.2 = []
      · rw [List.filter_cons_of_neg (by simpa using hp), ih hnd.2]
        unfold selCode
        rw [aget_cons_of_ne hk]
      · rw [List.filter_cons_of_pos (by simpa using hp)]
        unfold selCode
        rw [aget_cons_of_ne hk, aget_cons_of_ne hk]
        exact ih hnd.2

/-- C9: assembly is a total function in the embedding, and an empty
selected code behaves exactly like an absent selection: deleting every
empty-code binding from the selections mapping leaves the assembled SKU
unchanged (empty codes contribute nothing, they are not a fault). -/
theorem c9_empty_codes_skipped (sep : Str) (fields : List (Str × FieldVal))
    (sel : List (Str × Str)) (chosenCodes : List Str)
    (hnd : (sel.map Prod.fst).Nodup) :
    assemble sep fields (sel.filter (fun p => p.2 ≠ [])) chosenCodes =
      assemble sep fields sel chosenCodes := by
  simp only [assemble, assemble_base]
  rw [List.filterMap_congr (fun k _ => selCode_filter hnd k)]

/-- C9 witness: a concrete selection with one empty code; dropping the
empty-code binding leaves the SKU unchanged. -/
theorem c9_witness :
    (([(chars "Brand", chars "BL"), (chars "Capacity", [])] :
        List (Str × Str)).map Prod.fst).Nodup ∧
    assemble (chars "-") (normalize_fields blastCat.fields)
        (([(chars "Brand", chars "BL"), (chars "Capacity", [])] :
          List (Str × Str)).filter (fun p => p.2 ≠ [])) [chars "R"] =
      assemble (chars "-") (normalize_fields blastCat.fields)
        [(chars "Brand", chars "BL"), (chars "Capacity", [])] [chars "R"] :=
  ⟨by decide, c9_empty_codes_skipped _ _ _ _ (by decide)⟩

/-! ### C10 -/

theorem mem_generate_full_matrix {cat : Category} {r : Row}
    (h : r ∈ generate_full_matrix cat) :
    ∃ combo, combo ∈ listProd ((enumDims (normalize_fields cat.fields)).map Prod.snd) ∧
      r = ⟨sepJoin cat.sep combo,
           List.zip ((enumDims (normalize_fields cat.fields)).map Prod.fst) combo⟩ := by
  rw [generate_full_matrix] at h
  split at h
  · cases h
  · rw [List.mem_map] at h
    obtain ⟨combo, hc, heq⟩ := h
    exact ⟨combo, hc, heq.symm⟩

/-- C10: every row's SKU column equals the category separator joining
the row's per-field code columns in `ordered_fields` order with no code
skipped (empty codes stay as empty segments), and the column names are
exactly the dropdown fields with a non-empty, non-text options list, in
that order. -/
theorem c10_row_invariant (cat : Category) :
    ∀ r ∈ generate_full_matrix cat,
      r.sku = sepJoin cat.sep (r.cols.map Prod.snd) ∧
      r.cols.map Prod.fst =
        (sortedFields (normalize_fields cat.fields)).filterMap (fun e =>
          if isTextOpts e.2.options = false ∧ e.2.options ≠ [] then some e.1 else none) := by
  intro r hr
  obtain ⟨combo, hc, rfl⟩ := mem_generate_full_matrix hr
  have hlen : combo.length = (enumDims (normalize_fields cat.fields)).length := by
    have := length_of_mem_listProd hc
    simpa using this
  have h1 : combo.length ≤ ((enumDims (normalize_fields cat.fields)).map Prod.fst).length := by
    rw [List.length_map, hlen]
  constructor
  · show sepJoin _ combo = sepJoin _ _
    rw [List.map_snd_zip _ _ h1]
  · show (List.zip _ combo).map Prod.fst = _
    have h2 : ((enumDims (normalize_fields cat.fields)).map Prod.fst).length ≤ combo.length := by
      rw [List.length_map, hlen]
    rw [List.map_fst_zip _ _ h2, enumDims, List.map_filterMap]
    apply List.filterMap_congr
    intro e _
    unfold enumF
    split <;> rfl

/-- C10 witness: the first Blast Machine row satisfies the row invariant. -/
theorem c10_witness :
    blastRow ∈ generate_full_matrix blastCat ∧
    (blastRow.sku = sepJoin blastCat.sep (blastRow.cols.map Prod.snd) ∧
     blastRow.cols.map Prod.fst =
       (sortedFields (normalize_fields blastCat.fields)).filterMap (fun e =>
         if isTextOpts e.2.options = false ∧ e.2.options ≠ [] then some e.1 else none)) :=
  ⟨by decide, c10_row_invariant blastCat blastRow (by decide)⟩

/-! ### C2 -/

theorem map_fst_normalizeFrom (i : Nat) (l : List (Str × FieldVal)) :
    (normalizeFrom i l).map Prod.fst = l.map Prod.fst := by
  induction l generalizing i with
  | nil => rfl
  | cons p rest ih =>
    obtain ⟨k, v⟩ := p
    simp [normalizeFrom, ih]

theorem enumF_fst {e : Str × FieldVal} {d : Str × List Str}
    (h : enumF e = some d) : d.1 = e.1 := by
  unfold enumF at h
  split at h
  · cases h; rfl
  · cases h

theorem mem_fst_filterMap_enumF {S : List (Str × FieldVal)} {k : Str}
    (h : k ∈ (S.filterMap enumF).map Prod.fst) : k ∈ S.map Prod.fst := by
  rw [List.mem_map] at h
  obtain ⟨d, hd, rfl⟩ := h
  rw [List.mem_filterMap] at hd
  obtain ⟨e, he, hfe⟩ := hd
  rw [enumF_fst hfe]
  exact List.mem_map_of_mem Prod.fst he

theorem mem_fst_zip {l1 : List α} {l2 : List β} {k : α}
    (h : k ∈ (List.zip l1 l2).map Prod.fst) : k ∈ l1 := by
  rw [List.mem_map] at h
  obtain ⟨⟨a, b⟩, hab, rfl⟩ := h
  exact (List.of_mem_zip hab).1

theorem sku_combine_nil (sep base : Str) : sku_combine sep base [] = base := by
  unfold sku_combine
  simp

theorem aget_cons_eq {k1 : Str} {v : β} {l : List (Str × β)} {k : Str}
    (h : k1 = k) : aget k ((k1, v) :: l) = some v := by
  rw [aget, if_pos h]

theorem aget_cons_ne {k1 : Str} {v : β} {l : List (Str × β)} {k : Str}
    (h : ¬ k1 = k) : aget k ((k1, v) :: l) = aget k l := by
  rw [aget, if_neg h]

/-- Walking the full ordered field-name list and looking each name up in
the row's columns reproduces exactly the row's code tuple, provided the
names are distinct and every code in the tuple is non-empty. -/
theorem filterMap_selCode_zip (S : List (Str × FieldVal)) (combo : List Str)
    (hnd : (S.map Prod.fst).Nodup)
    (hlen : combo.length = (S.filterMap enumF).length)
    (hne : ∀ c ∈ combo, c ≠ []) :
    (S.map Prod.fst).filterMap
      (selCode (List.zip ((S.filterMap enumF).map Prod.fst) combo)) = combo := by
  induction S generalizing combo with
  | nil =>
    have hcombo : combo = [] := List.eq_nil_of_length_eq_zero (by simpa using hlen)
    rw [hcombo]
    rfl
  | cons e S ih =>
    rw [List.map_cons, List.nodup_cons] at hnd
    cases henum : enumF e with
    | some d =>
      have hd1 : d.1 = e.1 := enumF_fst henum
      rw [List.filterMap_cons_some henum] at hlen
      cases combo with
      | nil =>
        rw [List.length_nil, List.length_cons] at hlen
        exact absurd hlen.symm (Nat.succ_ne_zero _)
      | cons c combo' =>
        have hc_ne : c ≠ [] := hne c (List.mem_cons_self c combo')
        have hfe : selCode (List.zip (((e :: S).filterMap enumF).map Prod.fst)
            (c :: combo')) e.1 = some c := by
          unfold selCode
          rw [List.filterMap_cons_some henum, List.map_cons, List.zip_cons_cons,
            aget_cons_eq hd1]
          simp [hc_ne]
        rw [List.map_cons, List.filterMap_cons_some hfe]
        have hcongr : ∀ k ∈ S.map Prod.fst,
            selCode (List.zip (((e :: S).filterMap enumF).map Prod.fst) (c :: combo')) k =
            selCode (List.zip ((S.filterMap enumF).map Prod.fst) combo') k := by
          intro k hk
          unfold selCode
          rw [List.filterMap_cons_some henum, List.map_cons, List.zip_cons_cons,
            aget_cons_ne]
          intro hkk
          have hek : e.1 = k := by rw [← hd1]; exact hkk
          apply hnd.1
          rw [hek]
          exact hk
        rw [List.filterMap_congr hcongr]
        rw [List.length_cons] at hlen
        exact congrArg _ (ih combo' hnd.2 (by simpa using hlen)
          (fun x hx => hne x (List.mem_cons_of_mem _ hx)))
    | none =>
      rw [List.filterMap_cons_none henum] at hlen
      have hzip : ((e :: S).filterMap enumF) = S.filterMap enumF :=
        List.filterMap_cons_none henum
      rw [hzip]
      have hnone : selCode (List.zip ((S.filterMap enumF).map Prod.fst) combo) e.1 = none := by
        unfold selCode
        have hag : aget e.1 (List.zip ((S.filterMap enumF).map Prod.fst) combo) = none := by
          rw [aget_eq_none_iff]
          intro hmem
          exact hnd.1 (mem_fst_filterMap_enumF (mem_fst_zip hmem))
        rw [hag]
        rfl
      rw [List.map_cons, List.filterMap_cons_none hnone]
      exact ih combo hnd.2 hlen hne

/-- C2 counterexample: with an empty option code, the enumerator keeps
the empty segment (row SKU `"X-"`) while the assembler skips it (`"X"`),
so re-running the assembler on the row's own chosen codes does not
reproduce the row's SKU column: the two joins are not the same function. -/
theorem c2_cex :
    (generate_full_matrix emptyCodeCat).map Row.cols =
      [[(chars "A", chars "X"), (chars "B", [])]] ∧
    (generate_full_matrix emptyCodeCat).map Row.sku = [chars "X-"] ∧
    assemble emptyCodeCat.sep (normalize_fields emptyCodeCat.fields)
      [(chars "A", chars "X"), (chars "B", [])] [] = chars "X" ∧
    chars "X-" ≠ chars "X" := by
  decide

/-- C2 (amended): for a category whose field names are distinct (always
true of a Python dict) and a matrix row all of whose codes are
non-empty, re-running the assembler of `home` on the row's own column
codes, with no extras, reproduces the row's SKU column exactly.  (With
an empty option code the original claim fails, see the counterexample:
the enumerator keeps empty segments, the assembler drops them.) -/
theorem c2_assembler_consistency (cat : Category)
    (hnd : (cat.fields.map Prod.fst).Nodup) :
    ∀ r ∈ generate_full_matrix cat, (∀ c ∈ r.cols.map Prod.snd, c ≠ []) →
      assemble cat.sep (normalize_fields cat.fields) r.cols [] = r.sku := by
  intro r hr hne
  obtain ⟨combo, hc, rfl⟩ := mem_generate_full_matrix hr
  have hlen : combo.length = (enumDims (normalize_fields cat.fields)).length := by
    simpa using length_of_mem_listProd hc
  have hle : combo.length ≤ ((enumDims (normalize_fields cat.fields)).map Prod.fst).length := by
    rw [List.length_map, hlen]
  have hne' : ∀ c ∈ combo, c ≠ [] := by
    intro c hcc
    apply hne
    show c ∈ (List.zip _ combo).map Prod.snd
    rw [List.map_snd_zip _ _ hle]
    exact hcc
  have hndS : ((sortedFields (normalize_fields cat.fields)).map Prod.fst).Nodup := by
    have hperm := (List.perm_insertionSort fieldLe (normalize_fields cat.fields)).map Prod.fst
    exact hperm.nodup_iff.mpr (by
      rw [show (normalize_fields cat.fields).map Prod.fst = cat.fields.map Prod.fst from
        map_fst_normalizeFrom 1 _]
      exact hnd)
  unfold assemble
  rw [show ([] : List Str).flatten = [] from rfl, sku_combine_nil]
  unfold assemble_base ordered_fields
  simp only [enumDims]
  rw [filterMap_selCode_zip _ combo hndS (by simpa [enumDims] using hlen) hne']

/-- C2 witness: the first Blast Machine row, re-assembled. -/
theorem c2_witness :
    (blastCat.fields.map Prod.fst).Nodup ∧
    blastRow ∈ generate_full_matrix blastCat ∧
    (∀ c ∈ blastRow.cols.map Prod.snd, c ≠ []) ∧
    assemble blastCat.sep (normalize_fields blastCat.fields) blastRow.cols [] = blastRow.sku :=
  ⟨by decide, by decide, by decide,
    c2_assembler_consistency blastCat (by decide) blastRow (by decide) (by decide)⟩

/-! ### C6 -/

theorem getLast?_mem_of_eq : ∀ {l : List α} {a : α}, l.getLast? = some a → a ∈ l
  | [], _, h => by cases h
  | [x], a, h => by
    have hx : a = x := by
      have : (some x : Option α) = some a := h
      cases this
      rfl
    rw [hx]
    exact List.mem_singleton_self x
  | x :: y :: l, a, h => by
    rw [List.getLast?_cons_cons] at h
    exact List.mem_cons_of_mem _ (getLast?_mem_of_eq h)

theorem noSepRun_of_not_mem {c : Char} {l : Str} (h : ∀ x ∈ l, x ≠ c) :
    noSepRun c l := by
  refine ⟨?_, ?_, ?_⟩
  · cases l with
    | nil => intro hh; cases hh
    | cons x l' =>
      intro hh
      have : x = c := by cases hh; rfl
      exact h x (List.mem_cons_self x l') this
  · intro hh
    exact h _ (getLast?_mem_of_eq hh) rfl
  · exact (List.pairwise_of_forall_mem_list
      (fun a ha b _ => fun hc => h a ha hc.1)).chain'

theorem noSepRun_glue {c : Char} {p J : Str}
    (hp_ne : p ≠ []) (hp : noSepRun c p) (hJ_ne : J ≠ []) (hJ : noSepRun c J) :
    noSepRun c (p ++ c :: J) := by
  obtain ⟨hph, hpl, hpc⟩ := hp
  obtain ⟨hJh, hJl, hJc⟩ := hJ
  refine ⟨?_, ?_, ?_⟩
  · rw [List.head?_append_of_ne_nil _ hp_ne]
    exact hph
  · rw [List.getLast?_append_of_ne_nil _ (List.cons_ne_nil c J)]
    cases J with
    | nil => exact absurd rfl hJ_ne
    | cons y J' =>
      rw [List.getLast?_cons_cons]
      exact hJl
  · rw [List.chain'_append]
    refine ⟨hpc, ?_, ?_⟩
    · rw [List.chain'_cons']
      refine ⟨?_, hJc⟩
      intro y hy hcy
      apply hJh
      cases hh : J.head? with
      | none => rw [hh] at hy; cases hy
      | some b =>
        rw [hh] at hy
        have hyb : y = b := by cases hy; rfl
        rw [← hyb, hcy.2]
    · intro x hx y hy hxy
      apply hpl
      have hplx : p.getLast? = some x := hx
      rw [hplx, hxy.1]

theorem sepJoin_cons_ne_nil {sep q : Str} {rest : List Str} (hq : q ≠ []) :
    sepJoin sep (q :: rest) ≠ [] := by
  cases rest with
  | nil => exact hq
  | cons r rest' =>
    cases q with
    | nil => exact absurd rfl hq
    | cons x q' => exact List.cons_ne_nil _ _

theorem noSepRun_sepJoin {c : Char} {parts : List Str}
    (h : ∀ p ∈ parts, p ≠ [] ∧ ∀ x ∈ p, x ≠ c) :
    noSepRun c (sepJoin [c] parts) := by
  induction parts with
  | nil =>
    refine ⟨?_, ?_, List.chain'_nil⟩
    · intro hh
      cases hh
    · intro hh
      cases hh
  | cons p rest ih =>
    cases rest with
    | nil =>
      exact noSepRun_of_not_mem (h p (List.mem_cons_self p [])).2
    | cons q rest' =>
      have hp := h p (List.mem_cons_self p (q :: rest'))
      have hJ : noSepRun c (sepJoin [c] (q :: rest')) :=
        ih (fun r hr => h r (List.mem_cons_of_mem p hr))
      have hJ_ne : sepJoin [c] (q :: rest') ≠ [] :=
        sepJoin_cons_ne_nil (h q (List.mem_cons_of_mem p (List.mem_cons_self q rest'))).1
      show noSepRun c (p ++ [c] ++ sepJoin [c] (q :: rest'))
      rw [List.append_assoc]
      exact noSepRun_glue hp.1 (noSepRun_of_not_mem hp.2) hJ_ne hJ

theorem noSepRun_sku_combine {c : Char} {base extras : Str}
    (hb : noSepRun c base) (he : ∀ x ∈ extras, x ≠ c) :
    noSepRun c (sku_combine [c] base extras) := by
  unfold sku_combine
  by_cases hbe : base ≠ [] ∧ extras ≠ []
  · rw [if_pos hbe, List.append_assoc]
    exact noSepRun_glue hbe.1 hb hbe.2 (noSepRun_of_not_mem he)
  · rw [if_neg hbe, List.append_nil]
    by_cases hb0 : base = []
    · rw [hb0, List.nil_append]
      exact noSepRun_of_not_mem he
    · have he0 : extras = [] := by
        by_contra he0
        exact hbe ⟨hb0, he0⟩
      rw [he0, List.append_nil]
      exact hb

theorem noSepRun_not_lead {c : Char} {l : Str} (h : noSepRun c l) :
    ¬ [c] <+: l := by
  rintro ⟨t, ht⟩
  apply h.1
  rw [← ht]
  rfl

theorem noSepRun_not_trail {c : Char} {l : Str} (h : noSepRun c l) :
    ¬ [c] <:+ l := by
  rintro ⟨t, ht⟩
  apply h.2.1
  rw [← ht]
  exact List.getLast?_concat t

theorem noSepRun_not_double {c : Char} {l : Str} (h : noSepRun c l) :
    ¬ [c, c] <:+: l := by
  rintro ⟨s, t, ht⟩
  have hc : l.Chain' (fun a b => ¬ (a = c ∧ b = c)) := h.2.2
  rw [← ht, List.append_assoc] at hc
  have h2 := (List.chain'_append.mp hc).2.1
  have h3 := (List.chain'_cons.mp h2).1
  exact h3 ⟨rfl, rfl⟩

theorem aget_mem {l : List (Str × β)} {k : Str} {v : β}
    (h : aget k l = some v) : ∃ p, p ∈ l ∧ p.2 = v := by
  induction l with
  | nil => cases h
  | cons p rest ih =>
    rw [aget] at h
    split at h
    · cases h
      exact ⟨p, List.mem_cons_self p rest, rfl⟩
    · obtain ⟨q, hq, hv⟩ := ih h
      exact ⟨q, List.mem_cons_of_mem p hq, hv⟩

theorem selCode_part_prop {sel : List (Str × Str)} {c : Char}
    (hsel : ∀ p ∈ sel, ∀ x ∈ p.2, x ≠ c) {k : Str} {part : Str}
    (h : selCode sel k = some part) : part ≠ [] ∧ ∀ x ∈ part, x ≠ c := by
  unfold selCode at h
  cases hag : aget k sel with
  | none => rw [hag] at h; cases h
  | some v =>
    rw [hag] at h
    simp only [Option.some_bind] at h
    by_cases hv : v = []
    · rw [if_neg (not_not_intro hv)] at h
      cases h
    · rw [if_pos hv] at h
      cases h
      obtain ⟨p, hp, hpv⟩ := aget_mem hag
      exact ⟨hv, fun x hx => hsel p hp x (by rw [hpv]; exact hx)⟩

/-- C6 counterexample: with separator `"-"` and a selected field code
`"A-"` that itself contains the separator, the assembled SKU is `"A-"`,
which ends with the separator — the placement law does not hold for
arbitrary codes. -/
theorem c6_cex :
    chars "-" <:+ assemble (chars "-")
      [(chars "f", FieldVal.canonical ⟨some 1, [⟨chars "A-", chars "A dash", none, none⟩]⟩)]
      [(chars "f", chars "A-")] [] :=
  ⟨chars "A", by decide⟩

/-- C6 (amended): provided the separator is a single character that
occurs in no selected field code and in no chosen extra code, the
assembled SKU never begins with the separator, never ends with it, and
never contains two adjacent occurrences of it.  (Without that proviso
the law fails — a code containing the separator leaks it to the edge,
see the counterexample — and multi-character separators can also leak:
separator `"aa"` over codes `"a"`, `"b"` yields `"aaab"`, which starts
with `"aa"`.) -/
theorem c6_separator_placement (c : Char) (fields : List (Str × FieldVal))
    (sel : List (Str × Str)) (chosenCodes : List Str)
    (hsel : ∀ p ∈ sel, ∀ x ∈ p.2, x ≠ c)
    (hch : ∀ e ∈ chosenCodes, ∀ x ∈ e, x ≠ c) :
    ¬ [c] <+: assemble [c] fields sel chosenCodes ∧
    ¬ [c] <:+ assemble [c] fields sel chosenCodes ∧
    ¬ [c, c] <:+: assemble [c] fields sel chosenCodes := by
  have hbase : noSepRun c (assemble_base [c] fields sel) := by
    unfold assemble_base
    apply noSepRun_sepJoin
    intro p hp
    rw [List.mem_filterMap] at hp
    obtain ⟨k, _, hk⟩ := hp
    exact selCode_part_prop hsel hk
  have hext : ∀ x ∈ chosenCodes.flatten, x ≠ c := by
    intro x hx
    rw [List.mem_flatten] at hx
    obtain ⟨e, he, hxe⟩ := hx
    exact hch e he x hxe
  have hrun : noSepRun c (assemble [c] fields sel chosenCodes) :=
    noSepRun_sku_combine hbase hext
  exact ⟨noSepRun_not_lead hrun, noSepRun_not_trail hrun, noSepRun_not_double hrun⟩

/-- C6 witness: on the Blast Machine category with selection BL/20 and
extra R, the SKU has no leading, trailing or doubled separator. -/
theorem c6_witness :
    (∀ p ∈ c6sel, ∀ x ∈ p.2, x ≠ '-') ∧
    (∀ e ∈ [chars "R"], ∀ x ∈ e, x ≠ '-') ∧
    (¬ ['-'] <+: assemble ['-'] blastCat.fields c6sel [chars "R"] ∧
     ¬ ['-'] <:+ assemble ['-'] blastCat.fields c6sel [chars "R"] ∧
     ¬ ['-', '-'] <:+: assemble ['-'] blastCat.fields c6sel [chars "R"]) :=
  ⟨by decide, by decide,
    c6_separator_placement '-' blastCat.fields c6sel [chars "R"] (by decide) (by decide)⟩

/-! ### C3 -/

theorem normalizeFrom_eq_of_canonical {l : List (Str × FieldVal)}
    (h : ∀ kv ∈ l, kv.2.isCanonical = true) (i : Nat) :
    normalizeFrom i l = l := by
  induction l generalizing i with
  | nil => rfl
  | cons p rest ih =>
    obtain ⟨k, v⟩ := p
    cases v with
    | legacy opts =>
      have hlg := h (k, .legacy opts) (List.mem_cons_self _ _)
      cases hlg
    | canonical s =>
      rw [normalizeFrom, ih (fun kv hkv => h kv (List.mem_cons_of_mem _ hkv))]
      rfl

theorem orderedInsert_filter_pos (q : Str × FieldVal → Bool) (a : Str × FieldVal)
    (ha : q a = true) :
    ∀ L : List (Str × FieldVal), List.Sorted fieldLe L →
      (List.orderedInsert fieldLe a L).filter q = List.orderedInsert fieldLe a (L.filter q)
  | [], _ => by
    show List.filter q [a] = List.orderedInsert fieldLe a []
    rw [List.filter_cons_of_pos ha]
    rfl
  | b :: t, hs => by
    by_cases hab : fieldLe a b
    · rw [List.orderedInsert_of_le fieldLe _ hab, List.filter_cons_of_pos ha]
      by_cases hb : q b = true
      · rw [List.filter_cons_of_pos hb, List.orderedInsert_of_le fieldLe _ hab]
      · rw [List.filter_cons_of_neg hb]
        cases hft : t.filter q with
        | nil => rfl
        | cons c s =>
          have hcmem : c ∈ t := (List.mem_filter.mp (hft ▸ List.mem_cons_self c s)).1
          have hbc : fieldLe b c := List.rel_of_sorted_cons hs c hcmem
          have hac : fieldLe a c := Int.le_trans hab hbc
          rw [List.orderedInsert_of_le fieldLe _ hac]
    · have hoi : List.orderedInsert fieldLe a (b :: t) =
          b :: List.orderedInsert fieldLe a t := by
        simp only [List.orderedInsert, if_neg hab]
      rw [hoi]
      by_cases hb : q b = true
      · have hoi2 : List.orderedInsert fieldLe a (b :: t.filter q) =
            b :: List.orderedInsert fieldLe a (t.filter q) := by
          simp only [List.orderedInsert, if_neg hab]
        rw [List.filter_cons_of_pos hb,
          orderedInsert_filter_pos q a ha t hs.of_cons,
          List.filter_cons_of_pos hb, hoi2]
      · rw [List.filter_cons_of_neg hb,
          orderedInsert_filter_pos q a ha t hs.of_cons,
          List.filter_cons_of_neg hb]

theorem orderedInsert_filter_neg (q : Str × FieldVal → Bool) (a : Str × FieldVal)
    (ha : ¬ q a = true) (L : List (Str × FieldVal)) :
    (List.orderedInsert fieldLe a L).filter q = L.filter q := by
  rw [List.orderedInsert_eq_take_drop, List.filter_append, List.filter_cons_of_neg ha,
    ← List.filter_append, List.takeWhile_append_dropWhile]

theorem insertionSort_filter (q : Str × FieldVal → Bool) (l : List (Str × FieldVal)) :
    List.insertionSort fieldLe (l.filter q) = (List.insertionSort fieldLe l).filter q := by
  induction l with
  | nil => rfl
  | cons a l ih =>
    by_cases ha : q a = true
    · rw [List.filter_cons_of_pos ha]
      show List.orderedInsert fieldLe a (List.insertionSort fieldLe (l.filter q)) =
        (List.orderedInsert fieldLe a (List.insertionSort fieldLe l)).filter q
      rw [ih, orderedInsert_filter_pos q a ha _ (List.sorted_insertionSort fieldLe l)]
    · rw [List.filter_cons_of_neg ha]
      show List.insertionSort fieldLe (l.filter q) =
        (List.orderedInsert fieldLe a (List.insertionSort fieldLe l)).filter q
      rw [ih, orderedInsert_filter_neg q a ha]

theorem filterMap_enumF_filter (S : List (Str × FieldVal)) :
    (S.filter (fun kv => !isTextOpts kv.2.options)).filterMap enumF =
      S.filterMap enumF := by
  induction S with
  | nil => rfl
  | cons e S ih =>
    cases hio : isTextOpts e.2.options with
    | false =>
      rw [List.filter_cons_of_pos (by rw [hio]; rfl)]
      cases hfe : enumF e with
      | none => rw [List.filterMap_cons_none hfe, List.filterMap_cons_none hfe, ih]
      | some d => rw [List.filterMap_cons_some hfe, List.filterMap_cons_some hfe, ih]
    | true =>
      rw [List.filter_cons_of_neg (by rw [hio]; intro hh; cases hh)]
      have hnone : enumF e = none := by
        unfold enumF
        rw [if_neg]
        intro hcond
        rw [hio] at hcond
        cases hcond.1
      rw [List.filterMap_cons_none hnone, ih]

theorem enumDims_filter_text (F : List (Str × FieldVal)) :
    enumDims (F.filter (fun kv => !isTextOpts kv.2.options)) = enumDims F := by
  unfold enumDims sortedFields
  rw [insertionSort_filter, filterMap_enumF_filter]

/-- C3 counterexample: with dropdown `Brand=\x7bBL\x7d` and FreeText field
`"Part Number"`, the single output row is exactly
`(SKU "BL", columns [("Brand","BL")])` — the FreeText field appears in
no row, neither as a column nor as a placeholder segment of the SKU. -/
theorem c3_cex :
    generate_full_matrix textPlusCat =
      [⟨chars "BL", [(chars "Brand", chars "BL")]⟩] ∧
    chars "Part Number" ∉ [chars "Brand"] := by
  decide

/-- C3 (amended): a FreeText field is excluded from matrix enumeration
entirely — it contributes no column to any output row (first conjunct)
and no placeholder segment, and removing all FreeText fields from the
category leaves the enumeration output literally unchanged, so its
presence never changes the number of rows (second conjunct).  Stated
for categories with distinct field names whose values are canonical
dicts, both invariants of a Python dict configuration. -/
theorem c3_text_fields_excluded (cat : Category)
    (hnd : (cat.fields.map Prod.fst).Nodup)
    (hcanon : ∀ kv ∈ cat.fields, kv.2.isCanonical = true) :
    (∀ r ∈ generate_full_matrix cat, ∀ kv ∈ cat.fields,
        isTextOpts kv.2.options = true → kv.1 ∉ r.cols.map Prod.fst) ∧
    generate_full_matrix
        ⟨cat.fields.filter (fun kv => !isTextOpts kv.2.options),
         cat.extras, cat.settings⟩ =
      generate_full_matrix cat := by
  have hnormF : normalize_fields cat.fields = cat.fields :=
    normalizeFrom_eq_of_canonical hcanon 1
  constructor
  · intro r hr kv hkv htext hmem
    obtain ⟨combo, hc, rfl⟩ := mem_generate_full_matrix hr
    have hmem2 : kv.1 ∈ ((enumDims (normalize_fields cat.fields)).map Prod.fst) :=
      mem_fst_zip hmem
    rw [hnormF, List.mem_map] at hmem2
    obtain ⟨d, hd, hd1⟩ := hmem2
    rw [enumDims, List.mem_filterMap] at hd
    obtain ⟨e, he, hfe⟩ := hd
    have heF : e ∈ cat.fields :=
      (List.perm_insertionSort fieldLe cat.fields).subset he
    have hnt : isTextOpts e.2.options = false := by
      unfold enumF at hfe
      split at hfe
      · next hcond => exact hcond.1
      · cases hfe
    have hkey : e.1 = kv.1 := by rw [← enumF_fst hfe, hd1]
    have hekv := List.inj_on_of_nodup_map hnd heF hkv hkey
    rw [hekv, htext] at hnt
    cases hnt
  · have hcanonF : ∀ kv ∈ cat.fields.filter (fun kv => !isTextOpts kv.2.options),
        kv.2.isCanonical = true :=
      fun kv hkv => hcanon kv (List.mem_of_mem_filter hkv)
    have hnormF2 : normalize_fields
        (cat.fields.filter (fun kv => !isTextOpts kv.2.options)) =
        cat.fields.filter (fun kv => !isTextOpts kv.2.options) :=
      normalizeFrom_eq_of_canonical hcanonF 1
    show (if enumDims (normalize_fields
        ((⟨cat.fields.filter (fun kv => !isTextOpts kv.2.options),
          cat.extras, cat.settings⟩ : Category).fields)) = [] then _ else _) = _
    rw [show (⟨cat.fields.filter (fun kv => !isTextOpts kv.2.options),
          cat.extras, cat.settings⟩ : Category).fields =
        cat.fields.filter (fun kv => !isTextOpts kv.2.options) from rfl]
    rw [hnormF2, enumDims_filter_text]
    rw [generate_full_matrix, hnormF]
    rfl

/-- C3 witness: the dropdown-plus-FreeText category satisfies both the
column-exclusion invariant and the row-preservation equality. -/
theorem c3_witness :
    (textPlusCat.fields.map Prod.fst).Nodup ∧
    (∀ kv ∈ textPlusCat.fields, kv.2.isCanonical = true) ∧
    ((∀ r ∈ generate_full_matrix textPlusCat, ∀ kv ∈ textPlusCat.fields,
        isTextOpts kv.2.options = true → kv.1 ∉ r.cols.map Prod.fst) ∧
     generate_full_matrix
        ⟨textPlusCat.fields.filter (fun kv => !isTextOpts kv.2.options),
         textPlusCat.extras, textPlusCat.settings⟩ =
      generate_full_matrix textPlusCat) :=
  ⟨by decide, by decide, c3_text_fields_excluded textPlusCat (by decide) (by decide)⟩
